import Mathlib

/-!
Verification of the minesweeper constraint-solving AI.

This file gives a shallow embedding, in Lean, of the parts of the
minesweeper repository that the verified properties talk about:

* `src/board.rs` — the board data model (`Point`, `Cell`, `Board`) and the
  cell-knowledge queries consumed by the solver;
* `src/ai.rs` — the frontier constraint solver (`Constraint`,
  `ConstraintFrontier`, `backtracking_search`) and the Monte-Carlo
  probability estimator (`get_monte_carlo_probabilities`);
* `src/constraint.rs` — the generic backtracking constraint solver
  (`Variable`, the `Constraint` trait, `ConstraintSolver`, the
  `DegreeSelectionStrategy`).

Modelling conventions:

* `usize` is modelled as `Nat`.  Where a subtraction can underflow and that
  underflow is the property under scrutiny (constraint construction), the
  subtraction is modelled as the fallible `checkedSub`, returning `none`
  exactly where a default (overflow-checked) Rust build panics.  Where the
  surrounding code guards the subtraction (the search updates), truncated
  `Nat` subtraction is used and the theorems carry the guard as a
  hypothesis, under which the two semantics agree.
* Rust panics (`expect`, `unwrap`, index out of bounds, checked-arithmetic
  aborts) are modelled as `Option.none` results.
* Ambient nondeterminism (the `thread_rng` shuffle of the frontier, the
  iteration order of `HashMap` keys) is modelled by explicit inputs: a list
  of per-rollout orderings for the estimator, and an explicit key order for
  `ConstraintSolver::backtrack`.
* `HashMap<K, V>` is modelled as `K → Option V` so that the presence or
  absence of a key is observable; `HashSet<usize>` is modelled as
  `Finset Nat`.
-/

/-! ## Board model (src/board.rs) -/

/-- Content of a cell: `Content` in src/board.rs. -/
inductive Content where
  | Mine : Content
  | Empty : Content
deriving DecidableEq

/-- Knowledge state of a cell: `KnowledgeState` in src/board.rs. -/
inductive KnowledgeState where
  | Unknown : KnowledgeState
  | Flag : KnowledgeState
  | Known : KnowledgeState
deriving DecidableEq

/-- `KnowledgeState::is_known`. -/
def KnowledgeState.isKnown : KnowledgeState → Bool
  | KnowledgeState.Known => true
  | _ => false

/-- `KnowledgeState::is_flag`. -/
def KnowledgeState.isFlag : KnowledgeState → Bool
  | KnowledgeState.Flag => true
  | _ => false

/-- `KnowledgeState::is_unknown`. -/
def KnowledgeState.isUnknown : KnowledgeState → Bool
  | KnowledgeState.Unknown => true
  | _ => false

/-- `Point(usize, usize)` from src/board.rs; `fst`/`snd` stand for the Rust
tuple fields `.0`/`.1`. -/
structure Point where
  fst : Nat
  snd : Nat
deriving DecidableEq

/-- `Cell` from src/board.rs. -/
structure Cell where
  content : Content
  minedNeighborCount : Nat
  knowledge : KnowledgeState
  point : Point
deriving DecidableEq

/-- `Cell::is_assumed_mine`. -/
def Cell.isAssumedMine (c : Cell) : Bool :=
  match c.knowledge, c.content with
  | KnowledgeState.Unknown, _ => false
  | KnowledgeState.Flag, _ => true
  | KnowledgeState.Known, Content.Mine => true
  | _, _ => false

/-- `Cell::is_known_unmined`. -/
def Cell.isKnownUnmined (c : Cell) : Bool :=
  match c.knowledge, c.content with
  | KnowledgeState.Known, Content.Empty => true
  | _, _ => false

/-- `BoardSize` from src/board.rs. -/
structure BoardSize where
  width : Nat
  height : Nat
deriving DecidableEq

/-- `BoardSize::area`. -/
def BoardSize.area (s : BoardSize) : Nat := s.width * s.height

/-- `BoardSize::point_from_integer`. -/
def BoardSize.pointFromInteger (s : BoardSize) (x : Nat) : Option Point :=
  if x ≥ s.area then none else some ⟨x / s.width, x % s.width⟩

/-- `BoardSize::points`. -/
def BoardSize.points (s : BoardSize) : List Point :=
  (List.range s.area).filterMap s.pointFromInteger

/-- `BoardSize::integer_from_point`.  The source computes
`point.0*self.width + point.1 % self.width` and rejects only `x > area`,
both reproduced verbatim. -/
def BoardSize.integerFromPoint (s : BoardSize) (p : Point) : Option Nat :=
  let x := p.fst * s.width + p.snd % s.width
  if x > s.area then none else some x

/-- `Board` from src/board.rs.  The cell grid is the flat vector `field`. -/
structure Board where
  size : BoardSize
  field : List Cell
  mineCount : Nat
  initialized : Bool
deriving DecidableEq

/-- Placeholder cell returned on an out-of-bounds access.  In the source an
out-of-bounds `retrieve_cell` panics; every access made by the theorems
below is in bounds, so this value is never observed there. -/
def dummyCell : Cell :=
  { content := Content.Empty, minedNeighborCount := 0,
    knowledge := KnowledgeState.Unknown, point := ⟨0, 0⟩ }

/-- `Board::retrieve_cell`. -/
def Board.retrieveCell (b : Board) (p : Point) : Cell :=
  match b.size.integerFromPoint p with
  | none => dummyCell
  | some i => b.field.getD i dummyCell

/-- The eight neighbor offsets, in the order the nested `-1..2` loops of
`Board::neighbor_points` produce them (skipping `(0, 0)`). -/
def neighborOffsets : List (Int × Int) :=
  [(-1, -1), (-1, 0), (-1, 1), (0, -1), (0, 1), (1, -1), (1, 0), (1, 1)]

/-- `Board::neighbor_points`.  The source checks the first (row) coordinate
against `width` and the second against `height`; this swap is reproduced
verbatim (it is invisible on the square boards used below). -/
def Board.neighborPoints (b : Board) (p : Point) : List Point :=
  ((neighborOffsets.map
      (fun ij => (ij.1 + (p.fst : Int), ij.2 + (p.snd : Int)))).filter
    (fun xy => decide (0 ≤ xy.1) && decide (xy.1 < (b.size.width : Int)) &&
               decide (0 ≤ xy.2) && decide (xy.2 < (b.size.height : Int)))).map
    (fun xy => Point.mk xy.1.toNat xy.2.toNat)

/-- `Board::neighbor_cells_from_point`. -/
def Board.neighborCellsFromPoint (b : Board) (p : Point) : List Cell :=
  (b.neighborPoints p).map b.retrieveCell

/-- `Board::cells`. -/
def Board.cells (b : Board) : List Cell :=
  b.size.points.map b.retrieveCell

/-- `Board::unknown_count`. -/
def Board.unknownCount (b : Board) : Nat :=
  (b.cells.filter (fun c => !c.knowledge.isKnown)).length

/-- `Board::found_mines`. -/
def Board.foundMines (b : Board) : Nat :=
  (b.field.filter (fun c => c.isAssumedMine)).length

/-- `Board::remaining_mines` (an `i32` in the source, hence `Int`). -/
def Board.remainingMines (b : Board) : Int :=
  (b.mineCount : Int) - (b.foundMines : Int)

/-- `Board::has_unknown_neighbors`. -/
def Board.hasUnknownNeighbors (b : Board) (p : Point) : Bool :=
  decide (0 < ((b.neighborCellsFromPoint p).filter
    (fun c => !c.knowledge.isKnown)).length)

/-- `Board::has_known_neighbors`. -/
def Board.hasKnownNeighbors (b : Board) (p : Point) : Bool :=
  decide (0 < ((b.neighborCellsFromPoint p).filter
    (fun c => c.knowledge.isKnown)).length)

/-- `Board::count_assumed_mined_neighbors`. -/
def Board.countAssumedMinedNeighbors (b : Board) (p : Point) : Nat :=
  ((b.neighborCellsFromPoint p).filter (fun c => c.isAssumedMine)).length

/-- `Board::count_unknown_neighbors` (counts `Unknown` only, unlike
`has_unknown_neighbors`). -/
def Board.countUnknownNeighbors (b : Board) (p : Point) : Nat :=
  ((b.neighborCellsFromPoint p).filter (fun c => c.knowledge.isUnknown)).length

/-- `Board::get_border_points`. -/
def Board.getBorderPoints (b : Board) : List Point :=
  ((b.size.points.map b.retrieveCell).filter
    (fun c => c.knowledge.isUnknown && b.hasKnownNeighbors c.point)).map
    (fun c => c.point)

/-! ## Frontier constraint solver (src/ai.rs) -/

namespace ai

/-- `Constraint` from src/ai.rs.  The `HashSet<Point>` of constrained points
is modelled as a list (only membership is ever consulted). -/
structure Constraint where
  missingMines : Nat
  missingEmpties : Nat
  constrainedPoints : List Point
deriving DecidableEq

/-- `Constraint::decrement`.  The source decrements a `usize` tally; on a
zero tally a default Rust build panics.  Truncated `Nat` subtraction is
used here, and every theorem about these updates carries the positivity
guard under which the two semantics agree (the searches below only call
`decrement` on tallies that `satisfying_assignments` certified positive). -/
def Constraint.decrement (c : Constraint) (isMine : Bool) : Constraint :=
  match isMine with
  | false => { c with missingEmpties := c.missingEmpties - 1 }
  | true => { c with missingMines := c.missingMines - 1 }

/-- `Constraint::increment`. -/
def Constraint.increment (c : Constraint) (isMine : Bool) : Constraint :=
  match isMine with
  | false => { c with missingEmpties := c.missingEmpties + 1 }
  | true => { c with missingMines := c.missingMines + 1 }

/-- `ConstraintFrontier` from src/ai.rs. -/
structure ConstraintFrontier where
  points : List Point
  missingMines : Nat
  constraints : List Constraint
deriving DecidableEq

/-- Overflow-checked `usize` subtraction: `none` exactly where `a - b`
underflows, which in a default (overflow-checked) Rust build is a panic
that aborts the rollout. -/
def checkedSub (a b : Nat) : Option Nat :=
  if b ≤ a then some (a - b) else none

/-- `ConstraintFrontier::build_constraints`.  The two `usize` subtractions
(`mined_neighbor_count - known_mines` and `total_unknown - missing_mines`)
can underflow on a contradictory board snapshot; they are modelled with
`checkedSub`, so the function returns `none` exactly where the source
aborts with an overflow panic. -/
def ConstraintFrontier.buildConstraints (board : Board) (points : List Point) :
    Option (List Constraint) :=
  points.mapM (fun point => do
    let cell := board.retrieveCell point
    let unknownNeighbors := ((board.neighborCellsFromPoint point).filter
      (fun c => c.knowledge.isUnknown)).map (fun c => c.point)
    let totalUnknown := unknownNeighbors.length
    let knownMines := board.countAssumedMinedNeighbors point
    let missingMines ← checkedSub cell.minedNeighborCount knownMines
    let missingEmpties ← checkedSub totalUnknown missingMines
    pure { missingMines := missingMines, missingEmpties := missingEmpties,
           constrainedPoints := unknownNeighbors })

/-- `ConstraintFrontier::from_board`. -/
def ConstraintFrontier.fromBoard (board : Board) : Option ConstraintFrontier := do
  let points := ((board.size.points.map board.retrieveCell).filter
    (fun cell => !cell.knowledge.isKnown && board.hasKnownNeighbors cell.point)).map
    (fun cell => cell.point)
  let borderPoints := ((board.size.points.map board.retrieveCell).filter
    (fun cell => cell.knowledge.isKnown && board.hasUnknownNeighbors cell.point)).map
    (fun cell => cell.point)
  let remaining := board.remainingMines
  let missingMines : Nat := if 0 ≤ remaining then remaining.toNat else 0
  let constraints ← ConstraintFrontier.buildConstraints board borderPoints
  pure { points := points, missingMines := missingMines, constraints := constraints }

/-- `ConstraintFrontier::satisfying_assignments`: folds over the
constraints containing the point; `true` (mine) is offered while every such
constraint has `missing_mines > 0`, `false` (empty) while every such
constraint has `missing_empties > 0`; `true` is pushed before `false`. -/
def ConstraintFrontier.satisfyingAssignments (f : ConstraintFrontier) (point : Point) :
    List Bool :=
  let cmce := (f.constraints.filter
      (fun c => decide (point ∈ c.constrainedPoints))).foldl
    (fun acc c => (acc.1 && decide (0 < c.missingMines),
                   acc.2 && decide (0 < c.missingEmpties)))
    (true, true)
  (if cmce.1 then [true] else []) ++ (if cmce.2 then [false] else [])

/-- `ConstraintFrontier::update_point`: decrement the tally of every
constraint containing the point, and the global `missing_mines` when the
point is assigned mine. -/
def ConstraintFrontier.updatePoint (f : ConstraintFrontier) (point : Point) (mine : Bool) :
    ConstraintFrontier :=
  { f with
    constraints := f.constraints.map
      (fun c => if point ∈ c.constrainedPoints then c.decrement mine else c),
    missingMines := if mine then f.missingMines - 1 else f.missingMines }

/-- `ConstraintFrontier::undo_update`. -/
def ConstraintFrontier.undoUpdate (f : ConstraintFrontier) (point : Point) (mine : Bool) :
    ConstraintFrontier :=
  { f with
    constraints := f.constraints.map
      (fun c => if point ∈ c.constrainedPoints then c.increment mine else c),
    missingMines := if mine then f.missingMines + 1 else f.missingMines }

/-- One iteration of the `for state in possible` loop of
`ConstraintFrontier::backtracking_search`: `Sum.inl` carries an early
`return Some(children)` past the remaining iterations, `Sum.inr` carries
the (mutated and then restored) frontier into the next iteration. -/
def searchStep (point : Point)
    (recur : ConstraintFrontier → ConstraintFrontier × Option (List Point))
    (acc : Sum (ConstraintFrontier × Option (List Point)) ConstraintFrontier)
    (st : Bool) :
    Sum (ConstraintFrontier × Option (List Point)) ConstraintFrontier :=
  match acc with
  | Sum.inl r => Sum.inl r
  | Sum.inr f =>
    let f1 := f.updatePoint point st
    match recur f1 with
    | (f2, none) => Sum.inr (f2.undoUpdate point st)
    | (f2, some children) =>
      Sum.inl (f2, some (if st then children ++ [point] else children))

/-- `ConstraintFrontier::backtracking_search`.  `self` is threaded
explicitly (the Rust method mutates the frontier in place); the returned
list is the set of points the completed assignment marked as mines, in the
order the source pushes them. -/
def ConstraintFrontier.backtrackingSearch :
    ConstraintFrontier → List Point → ConstraintFrontier × Option (List Point)
  | f, pts =>
    if f.missingMines = 0 then (f, none)
    else
      match pts with
      | [] => (f, some [])
      | point :: rest =>
        let possible := f.satisfyingAssignments point
        if possible.isEmpty then (f, none)
        else
          match possible.foldl
              (searchStep point
                (fun f1 => ConstraintFrontier.backtrackingSearch f1 rest))
              (Sum.inr f) with
          | Sum.inl r => r
          | Sum.inr fEnd => (fEnd, none)

/-- The fixed `rollouts = 10` of `NaiveAI::get_monte_carlo_probabilities`. -/
def rollouts : Nat := 10

/-- The body of one rollout of `NaiveAI::get_monte_carlo_probabilities`:
rebuild the frontier from the board, order its points (the `thread_rng`
shuffle is modelled by the externally supplied `perms`, indexed by the
rollout number), run the search, and accumulate the mine counts.  The
`.expect("got a none back")` on a failed search is the `none` of the inner
bind. -/
def mcStep (board : Board) (perms : List (List Point))
    (acc : (Point → Nat) × List Point) (i : Nat) :
    Option ((Point → Nat) × List Point) := do
  let frontier ← ConstraintFrontier.fromBoard board
  let points := perms.getD i frontier.points
  let mined ← (ConstraintFrontier.backtrackingSearch frontier points).2
  let counts := mined.foldl
    (fun cnts m => Function.update cnts m (cnts m + 1)) acc.1
  pure (counts, points)

/-- `NaiveAI::get_monte_carlo_probabilities`.  The counter `HashMap` is
read only through `unwrap_or(&0)`, so it is modelled as a total function;
the result pairs each border point (the frontier ordering of the last
rollout) with `count as f32 / rollouts as f32`, modelled exactly in `ℚ`. -/
def getMonteCarloProbabilities (board : Board) (perms : List (List Point)) :
    Option (List (Point × ℚ)) := do
  let res ← (List.range rollouts).foldlM (mcStep board perms)
    ((fun _ => 0 : Point → Nat), ([] : List Point))
  pure (res.2.map (fun point => (point, (res.1 point : ℚ) / (rollouts : ℚ))))

end ai

/-! ## Generic backtracking solver (src/constraint.rs) -/

namespace constraint

/-- `Variable<S, T>` from src/constraint.rs. -/
structure Variable (S T : Type) where
  id : S
  value : Option T
  possible : List T
deriving DecidableEq

/-- The `Constraint<S, T>` trait from src/constraint.rs, as a record of its
three methods.  `get_constrained_variable_ids` takes no arguments, so it is
a plain list; the other two receive the solver's `global_counts` and
`variable_lookup` maps. -/
structure Constraint (S T : Type) where
  getConstrainedVariableIds : List S
  checkConstraint : (T → Option Nat) → (S → Option (Variable S T)) → Bool
  consistentStatesForVariable : (S → Option (Variable S T)) → S → List T

/-- `ConstraintSolver<S, T, Strat>` from src/constraint.rs.  The selection
strategy is passed to `backtrack` as a function rather than stored, and the
two `HashMap`s are modelled as partial functions (`variable_to_constraints`
returns `[]` for an absent key, matching the `None => true` branches of the
callers). -/
structure ConstraintSolver (S T : Type) where
  variableLookup : S → Option (Variable S T)
  variableToConstraints : S → List (Constraint S T)
  globalCounts : T → Option Nat

/-- The type of `SelectionStrategy::get_next_index`. -/
def SelFn (S T : Type) : Type :=
  (S → Option (Variable S T)) → (S → List (Constraint S T)) → List S →
    Finset Nat → Option Nat

/-- Lexicographic strict order on `(degree, index)` pairs, the order under
which Rust's `Iterator::max` compares `(usize, usize)` tuples. -/
def pairLt (a b : Nat × Nat) : Bool :=
  decide (a.1 < b.1) || (decide (a.1 = b.1) && decide (a.2 < b.2))

/-- `DegreeSelectionStrategy::get_next_index`: the available index whose
variable has the most attached constraints, ties broken towards the larger
index (the `(count, idx)` tuple maximum).  The `HashSet` iteration is
modelled by enumerating the available indices in increasing order;
`Iterator::max` is order-independent here because the `(count, idx)` pairs
are pairwise distinct.  The enumeration ranges over the indices of
`points`, the only ones the source can index without panicking;
`backtrack` only ever supplies in-range indices. -/
def DegreeSelectionStrategy.getNextIndex {S T : Type} : SelFn S T :=
  fun _ v2c points avail =>
    ((((List.range points.length).filter (fun i => decide (i ∈ avail))).map
        (fun idx => ((match points.get? idx with
                      | none => 0
                      | some p => (v2c p).length), idx))).foldl
      (fun acc pr =>
        match acc with
        | none => some pr
        | some best => if pairLt best pr then some pr else some best)
      none).map (fun pr => pr.2)

/-- `ConstraintSolver::set_variable_state`.  Returns `none` where the
source panics: a variable id absent from `variable_lookup`, or the
`*count -= 1` underflow (note the source's `or_insert(1)` makes the
decrement of an absent key insert `0` rather than panic). -/
def setVariableState {S T : Type} [DecidableEq S] [DecidableEq T]
    (cs : ConstraintSolver S T) (v : S) (st : Option T) :
    Option (ConstraintSolver S T) := do
  let var ← cs.variableLookup v
  let counts1 ←
    match var.value with
    | none => some cs.globalCounts
    | some s =>
      let c := (cs.globalCounts s).getD 1
      if c = 0 then none
      else some (Function.update cs.globalCounts s (some (c - 1)))
  let counts2 :=
    match st with
    | none => counts1
    | some s => Function.update counts1 s (some ((counts1 s).getD 0 + 1))
  pure { cs with
         globalCounts := counts2,
         variableLookup :=
           Function.update cs.variableLookup v (some { var with value := st }) }

/-- `ConstraintSolver::constraints_are_satisfied`: every constraint
attached to the variable must pass `check_constraint`; `none` models the
source's `unwrap` panic on a missing variable. -/
def constraintsAreSatisfied {S T : Type} (cs : ConstraintSolver S T) (v : S) :
    Option Bool := do
  let var ← cs.variableLookup v
  pure ((cs.variableToConstraints var.id).all
    (fun c => c.checkConstraint cs.globalCounts cs.variableLookup))

/-- `ConstraintSolver::forward_check`: every variable constrained by every
constraint attached to the assigned variable (including the assigned
variable itself) must keep a non-empty `consistent_states_for_variable`. -/
def forwardCheck {S T : Type} (cs : ConstraintSolver S T) (v : S) : Option Bool := do
  let var ← cs.variableLookup v
  pure ((cs.variableToConstraints var.id).all
    (fun c => c.getConstrainedVariableIds.all
      (fun w => !(c.consistentStatesForVariable cs.variableLookup w).isEmpty)))

/-- The short-circuit conjunction
`constraints_are_satisfied(v) && forward_check(v)` guarding the recursion
in `ConstraintSolver::_backtrack`. -/
def gate {S T : Type} (cs : ConstraintSolver S T) (v : S) : Option Bool := do
  let a ← constraintsAreSatisfied cs v
  if a then forwardCheck cs v else pure false

/-- Result of `_backtrack`: the threaded solver, the threaded
`available_indices`, and the returned assignment (`None` for search
failure).  The whole value sits under an outer `Option` whose `none` models
a panic. -/
def BTResult (S T : Type) : Type :=
  ConstraintSolver S T × Finset Nat × Option (S → Option T)

/-- One iteration of the `for state in states` loop of
`ConstraintSolver::_backtrack`: tentatively assign, gate on
check + forward-check, recurse, and either return early (`Sum.inl`) or
undo and continue (`Sum.inr`).  `recur` is the recursive `_backtrack`
call on the already-reduced `available_indices`. -/
def backtrackStep {S T : Type} [DecidableEq S] [DecidableEq T]
    (recur : ConstraintSolver S T → Finset Nat → Option (BTResult S T)) (v : S)
    (acc : Option (Sum (BTResult S T) (ConstraintSolver S T × Finset Nat)))
    (st : T) :
    Option (Sum (BTResult S T) (ConstraintSolver S T × Finset Nat)) :=
  match acc with
  | none => none
  | some (Sum.inl r) => some (Sum.inl r)
  | some (Sum.inr (cs, avail)) =>
    match setVariableState cs v (some st) with
    | none => none
    | some cs1 =>
      match gate cs1 v with
      | none => none
      | some true =>
        match recur cs1 avail with
        | none => none
        | some (cs2, avail2, some children) =>
          some (Sum.inl (cs2, avail2, some (Function.update children v (some st))))
        | some (cs2, avail2, none) =>
          match setVariableState cs2 v none with
          | none => none
          | some cs3 => some (Sum.inr (cs3, avail2))
      | some false =>
        match setVariableState cs1 v none with
        | none => none
        | some cs3 => some (Sum.inr (cs3, avail))

/-- `ConstraintSolver::_backtrack`.  Structurally recursive on an explicit
fuel so that every theorem quantifies over all fuel values; `none` for
exhausted fuel coincides with the panic value and is excluded by every
hypothesis of the form `... = some result`.  A strategy returning an index
outside `available_indices` would make the source recurse forever (the
`remove` is a no-op); that divergence is also modelled as `none`. -/
def backtrackAux {S T : Type} [DecidableEq S] [DecidableEq T]
    (sel : SelFn S T) (points : List S) :
    Nat → ConstraintSolver S T → Finset Nat → Option (BTResult S T)
  | 0, _, _ => none
  | Nat.succ fuel, cs, avail =>
    match sel cs.variableLookup cs.variableToConstraints points avail with
    | none => some (cs, avail, some (fun _ => none))
    | some index =>
      if index ∈ avail then
        match points.get? index with
        | none => none
        | some v =>
          match cs.variableLookup v with
          | none => none
          | some var =>
            match var.possible.foldl
                (backtrackStep
                  (fun cs1 avail1 => backtrackAux sel points fuel cs1 avail1) v)
                (some (Sum.inr (cs, avail.erase index))) with
            | none => none
            | some (Sum.inl r) => some r
            | some (Sum.inr (csEnd, availEnd)) =>
              some (csEnd, insert index availEnd, none)
      else none

/-- `ConstraintSolver::backtrack`.  The source iterates
`variable_lookup.keys()` (a nondeterministic `HashMap` order) to build the
points slice and starts with every index available; the key order is an
explicit input here. -/
def ConstraintSolver.backtrack {S T : Type} [DecidableEq S] [DecidableEq T]
    (sel : SelFn S T) (fuel : Nat) (cs : ConstraintSolver S T) (keys : List S) :
    Option (BTResult S T) :=
  backtrackAux sel keys fuel cs (Finset.range keys.length)

end constraint

/-! ## Concrete instances used by the theorems -/

/-- Helper to write cells concisely. -/
def mkCell (ct : Content) (n : Nat) (k : KnowledgeState) (r c : Nat) : Cell :=
  { content := ct, minedNeighborCount := n, knowledge := k, point := ⟨r, c⟩ }

/-- The 3×3 board of the spec's concrete scenario: every cell revealed
except the centre, each revealed cell reporting one mined neighbor (the
centre mine), one mine remaining. -/
def boardC2 : Board :=
  { size := ⟨3, 3⟩,
    field := [
      mkCell Content.Empty 1 KnowledgeState.Known 0 0,
      mkCell Content.Empty 1 KnowledgeState.Known 0 1,
      mkCell Content.Empty 1 KnowledgeState.Known 0 2,
      mkCell Content.Empty 1 KnowledgeState.Known 1 0,
      mkCell Content.Mine 0 KnowledgeState.Unknown 1 1,
      mkCell Content.Empty 1 KnowledgeState.Known 1 2,
      mkCell Content.Empty 1 KnowledgeState.Known 2 0,
      mkCell Content.Empty 1 KnowledgeState.Known 2 1,
      mkCell Content.Empty 1 KnowledgeState.Known 2 2],
    mineCount := 1, initialized := true }

/-- The frontier `ConstraintFrontier::from_board` builds from `boardC2`:
one frontier point (the centre), one remaining mine, and one constraint per
revealed cell forcing the centre to be a mine. -/
def frontierC2 : ai.ConstraintFrontier :=
  { points := [⟨1, 1⟩], missingMines := 1,
    constraints := List.replicate 8 ⟨1, 0, [⟨1, 1⟩]⟩ }

/-- Rollout orderings for `boardC2` (its frontier is the single centre
point, so each shuffle is forced). -/
def permsC2 : List (List Point) := List.replicate 10 [⟨1, 1⟩]

/-- A consistent 3×3 board on which every rollout completes: one revealed
corner reporting zero mined neighbors (so its three unknown neighbors are
forced empty) and one mine hidden in the opposite corner, outside the
frontier. -/
def boardOK : Board :=
  { size := ⟨3, 3⟩,
    field := [
      mkCell Content.Empty 0 KnowledgeState.Known 0 0,
      mkCell Content.Empty 0 KnowledgeState.Unknown 0 1,
      mkCell Content.Empty 0 KnowledgeState.Unknown 0 2,
      mkCell Content.Empty 0 KnowledgeState.Unknown 1 0,
      mkCell Content.Empty 1 KnowledgeState.Unknown 1 1,
      mkCell Content.Empty 1 KnowledgeState.Unknown 1 2,
      mkCell Content.Empty 0 KnowledgeState.Unknown 2 0,
      mkCell Content.Empty 1 KnowledgeState.Unknown 2 1,
      mkCell Content.Mine 0 KnowledgeState.Unknown 2 2],
    mineCount := 1, initialized := true }

/-- The frontier built from `boardOK`. -/
def frontierOK : ai.ConstraintFrontier :=
  { points := [⟨0, 1⟩, ⟨1, 0⟩, ⟨1, 1⟩], missingMines := 1,
    constraints := [⟨0, 3, [⟨0, 1⟩, ⟨1, 0⟩, ⟨1, 1⟩]⟩] }

/-- Rollout orderings for `boardOK`: every rollout visits the frontier in
its natural order. -/
def permsOK : List (List Point) :=
  List.replicate 10 [⟨0, 1⟩, ⟨1, 0⟩, ⟨1, 1⟩]

/-- The probabilities `get_monte_carlo_probabilities` computes on `boardOK`
with `permsOK`: every frontier cell is empty in every rollout. -/
def probsOK : List (Point × ℚ) :=
  [(⟨0, 1⟩, ((0 : Nat) : ℚ) / ((ai.rollouts : Nat) : ℚ)),
   (⟨1, 0⟩, ((0 : Nat) : ℚ) / ((ai.rollouts : Nat) : ℚ)),
   (⟨1, 1⟩, ((0 : Nat) : ℚ) / ((ai.rollouts : Nat) : ℚ))]

/-- A 3×3 board whose cell `(0,1)` is flagged (correctly, on the single
mine) while its neighbor `(0,0)` is revealed: the flagged cell sits next
to a known cell. -/
def boardC4 : Board :=
  { size := ⟨3, 3⟩,
    field := [
      mkCell Content.Empty 1 KnowledgeState.Known 0 0,
      mkCell Content.Mine 0 KnowledgeState.Flag 0 1,
      mkCell Content.Empty 1 KnowledgeState.Unknown 0 2,
      mkCell Content.Empty 1 KnowledgeState.Unknown 1 0,
      mkCell Content.Empty 1 KnowledgeState.Unknown 1 1,
      mkCell Content.Empty 1 KnowledgeState.Unknown 1 2,
      mkCell Content.Empty 0 KnowledgeState.Unknown 2 0,
      mkCell Content.Empty 0 KnowledgeState.Unknown 2 1,
      mkCell Content.Empty 0 KnowledgeState.Unknown 2 2],
    mineCount := 1, initialized := true }

/-- An internally contradictory 3×3 snapshot: the revealed cell `(0,0)`
reports zero mined neighbors, yet its neighbor `(0,1)` is flagged, so the
already-resolved mined neighbors exceed `mined_neighbor_count`. -/
def boardC6 : Board :=
  { size := ⟨3, 3⟩,
    field := [
      mkCell Content.Empty 0 KnowledgeState.Known 0 0,
      mkCell Content.Empty 0 KnowledgeState.Flag 0 1,
      mkCell Content.Empty 0 KnowledgeState.Unknown 0 2,
      mkCell Content.Empty 0 KnowledgeState.Unknown 1 0,
      mkCell Content.Empty 0 KnowledgeState.Unknown 1 1,
      mkCell Content.Empty 0 KnowledgeState.Unknown 1 2,
      mkCell Content.Empty 0 KnowledgeState.Unknown 2 0,
      mkCell Content.Empty 0 KnowledgeState.Unknown 2 1,
      mkCell Content.Empty 0 KnowledgeState.Unknown 2 2],
    mineCount := 0, initialized := true }

/-- A concrete generic constraint over the two variables `0` and `1`
demanding exactly one of them be assigned `true`: the permissive partial
check bounds both value counts by one, and an already-assigned variable
offers exactly its assigned value. -/
def exactlyOne : constraint.Constraint Nat Bool :=
  { getConstrainedVariableIds := [0, 1],
    checkConstraint := fun _ lookup =>
      decide ((([0, 1] : List Nat).countP
        (fun i => (lookup i).bind constraint.Variable.value == some true)) ≤ 1) &&
      decide ((([0, 1] : List Nat).countP
        (fun i => (lookup i).bind constraint.Variable.value == some false)) ≤ 1),
    consistentStatesForVariable := fun lookup w =>
      match (lookup w).bind constraint.Variable.value with
      | some b => [b]
      | none =>
        (if (([0, 1] : List Nat).countP
              (fun i => (lookup i).bind constraint.Variable.value == some true)) < 1
         then [true] else []) ++
        (if (([0, 1] : List Nat).countP
              (fun i => (lookup i).bind constraint.Variable.value == some false)) < 1
         then [false] else []) }

/-- A solver over the two unassigned variables `0` and `1`, both with
domain `[true, false]`, coupled by `exactlyOne`. -/
def solver9 : constraint.ConstraintSolver Nat Bool :=
  { variableLookup := fun s =>
      if s = 0 then some ⟨0, none, [true, false]⟩
      else if s = 1 then some ⟨1, none, [true, false]⟩
      else none,
    variableToConstraints := fun s => if s < 2 then [exactlyOne] else [],
    globalCounts := fun _ => none }

/-- Extracts the value a completed `backtrack` run assigned to a variable. -/
def assignAt (r : Option (constraint.BTResult Nat Bool)) (n : Nat) : Option Bool :=
  match r with
  | some (_, _, some m) => m n
  | _ => none

/-- A generic constraint on variable `0` whose check always fails. -/
def cFail : constraint.Constraint Nat Bool :=
  { getConstrainedVariableIds := [0],
    checkConstraint := fun _ _ => false,
    consistentStatesForVariable := fun _ _ => [true] }

/-- A solver whose single variable `0` is already assigned `true` at entry
(with a consistent `global_counts`) and whose only constraint always
fails, so every search from it fails. -/
def solverPre : constraint.ConstraintSolver Nat Bool :=
  { variableLookup := fun s =>
      if s = 0 then some ⟨0, some true, [true, false]⟩ else none,
    variableToConstraints := fun s => if s = 0 then [cFail] else [],
    globalCounts := fun t => if t = true then some 1 else none }

/-- Like `solverPre` but with the variable unassigned at entry, as
`_backtrack` expects. -/
def solverFail : constraint.ConstraintSolver Nat Bool :=
  { variableLookup := fun s =>
      if s = 0 then some ⟨0, none, [true, false]⟩ else none,
    variableToConstraints := fun s => if s = 0 then [cFail] else [],
    globalCounts := fun _ => none }

/-- A solver with one unassigned variable, no constraints and an empty
`global_counts`. -/
def solverZero : constraint.ConstraintSolver Nat Bool :=
  { variableLookup := fun s =>
      if s = 0 then some ⟨0, none, [true, false]⟩ else none,
    variableToConstraints := fun _ => [],
    globalCounts := fun _ => none }

/-- The solver state after `set_variable_state(0, Some(true))` on
`solverZero`. -/
def solverZero1 : constraint.ConstraintSolver Nat Bool :=
  (constraint.setVariableState solverZero 0 (some true)).get (by decide)

/-- The solver state after a further `set_variable_state(0, None)`. -/
def solverZero2 : constraint.ConstraintSolver Nat Bool :=
  (constraint.setVariableState solverZero1 0 none).get (by decide)

/-- The solver state after tentatively assigning `true` to the variable of
`solverFail`. -/
def solverFail1 : constraint.ConstraintSolver Nat Bool :=
  (constraint.setVariableState solverFail 0 (some true)).get (by decide)

/-- The frontier state left behind by the completed search on
`frontierOK`: every point assigned empty, one mine still unplaced. -/
def frontierOKEnd : ai.ConstraintFrontier :=
  { points := [⟨0, 1⟩, ⟨1, 0⟩, ⟨1, 1⟩], missingMines := 1,
    constraints := [⟨0, 0, [⟨0, 1⟩, ⟨1, 0⟩, ⟨1, 1⟩]⟩] }

/-- A complete failing run of `backtrackAux` on `solverFail` with the
degree selection strategy. -/
def c10res : Option (constraint.BTResult Nat Bool) :=
  constraint.backtrackAux constraint.DegreeSelectionStrategy.getNextIndex [0] 2
    solverFail (Finset.range 1)

/-- The solver state returned by the failing run `c10res`. -/
def c10cs : constraint.ConstraintSolver Nat Bool :=
  (c10res.getD (solverFail, ∅, none)).1

/-- The available-index set returned by the failing run `c10res`. -/
def c10avail : Finset Nat :=
  (c10res.getD (solverFail, ∅, none)).2.1

/-! ## Helper lemmas -/

/-- Assigning `Some t` to an unassigned, present variable and then
assigning `None` back restores `variable_lookup` exactly and restores
every `global_counts` counter read with default `0`; only the presence of
an explicit zero entry can differ (see the C3 counterexample). -/
theorem setVariableState_some_then_none {S T : Type} [DecidableEq S] [DecidableEq T]
    (cs cs1 cs2 : constraint.ConstraintSolver S T) (v : S) (t : T)
    (var : constraint.Variable S T)
    (hv : cs.variableLookup v = some var) (hval : var.value = none)
    (h1 : constraint.setVariableState cs v (some t) = some cs1)
    (h2 : constraint.setVariableState cs1 v none = some cs2) :
    cs2.variableLookup = cs.variableLookup
    ∧ (∀ u, (cs2.globalCounts u).getD 0 = (cs.globalCounts u).getD 0)
    ∧ cs2.variableToConstraints = cs.variableToConstraints := by
  simp only [constraint.setVariableState, hv, hval, Option.bind_eq_bind,
    Option.some_bind, Option.pure_def, Option.some.injEq] at h1
  subst h1
  simp only [constraint.setVariableState, Function.update_same, Option.bind_eq_bind,
    Option.some_bind, Option.pure_def, Function.update_apply, if_pos rfl,
    Option.getD_some] at h2
  simp only [if_true, Option.getD_some, Nat.succ_ne_zero, Nat.add_one_ne_zero,
    if_false, Option.some.injEq, Nat.add_sub_cancel] at h2
  subst h2
  refine ⟨?_, ?_, rfl⟩
  · funext w
    by_cases hw : w = v
    · subst hw
      have hvar : ({ id := var.id, value := none, possible := var.possible } :
          constraint.Variable S T) = var := by
        cases var; simp_all
      simp [Function.update_idem, Function.update_apply, hvar, hv]
    · simp [Function.update_apply, hw]
  · intro u
    by_cases hu : u = t
    · subst hu
      simp [Function.update_idem, Function.update_apply]
    · simp [Function.update_apply, hu]

/-- Applying `update_point` and then `undo_update` for the same point and
value restores the frontier exactly, provided each decremented tally was
positive (which `satisfying_assignments` and the `missing_mines` entry
check guarantee in the search; without it the source decrement would
underflow and a default build would panic). -/
theorem undo_update_exact (f : ai.ConstraintFrontier) (point : Point) (st : Bool)
    (hg : st = true → 1 ≤ f.missingMines)
    (hc : ∀ c ∈ f.constraints, point ∈ c.constrainedPoints →
      (st = true → 1 ≤ c.missingMines) ∧ (st = false → 1 ≤ c.missingEmpties)) :
    (f.updatePoint point st).undoUpdate point st = f := by
  obtain ⟨pts, mm, cs⟩ := f
  have hg' : st = true → 1 ≤ mm := hg
  have hmap : ∀ c ∈ cs,
      ((fun c => if point ∈ c.constrainedPoints then c.increment st else c) ∘
       (fun c => if point ∈ c.constrainedPoints then c.decrement st else c)) c = id c := by
    intro c hcmem
    have hpos := hc c hcmem
    obtain ⟨cmm, cme, cpts⟩ := c
    by_cases hmem : point ∈ cpts
    · have h1 : st = true → 1 ≤ cmm := fun h => ((hpos hmem).1 h)
      have h2 : st = false → 1 ≤ cme := fun h => ((hpos hmem).2 h)
      cases st with
      | false =>
        have := h2 rfl
        simp only [Function.comp_apply, ai.Constraint.decrement, ai.Constraint.increment,
          if_pos hmem, id_eq, ai.Constraint.mk.injEq]
        refine ⟨trivial, by omega, trivial⟩
      | true =>
        have := h1 rfl
        simp only [Function.comp_apply, ai.Constraint.decrement, ai.Constraint.increment,
          if_pos hmem, id_eq, ai.Constraint.mk.injEq]
        refine ⟨by omega, trivial, trivial⟩
    · simp only [Function.comp_apply, ai.Constraint.decrement, ai.Constraint.increment,
        if_neg hmem, id_eq]
  simp only [ai.ConstraintFrontier.updatePoint, ai.ConstraintFrontier.undoUpdate,
    ai.ConstraintFrontier.mk.injEq, List.map_map]
  refine ⟨trivial, ?_, ?_⟩
  · cases st with
    | false => simp
    | true =>
      have := hg' rfl
      simp only [if_true, if_pos rfl]
      omega
  · exact (List.map_congr_left hmap).trans (List.map_id cs)

/-- When any element of a list fails under an `Option`-valued map, the
whole `mapM` fails. -/
theorem mapM_option_eq_none {α β : Type} (g : α → Option β) :
    ∀ (l : List α) (x : α), x ∈ l → g x = none → l.mapM g = none := by
  intro l
  induction l with
  | nil => intro x hx; cases hx
  | cons a l ih =>
    intro x hx hgx
    rw [List.mapM_cons]
    rcases List.mem_cons.mp hx with rfl | hx
    · simp only [hgx, Option.bind_eq_bind, Option.none_bind]
    · cases hga : g a with
      | none => simp only [hga, Option.bind_eq_bind, Option.none_bind]
      | some b =>
        simp only [hga, Option.bind_eq_bind, Option.some_bind, ih x hx hgx,
          Option.none_bind]

/-! ## Claim theorems -/

/-- C2 (code bug).  On the spec's concrete scenario — a 3×3 board with
exactly one unknown cell, `remaining_mines() = 1`, and every revealed cell
reporting one mined neighbor against that single unknown — the claim says
every rollout assigns the cell as mine and the estimator returns
probability `1.0` for it.  Instead `backtracking_search` rejects the only
completion (its `missing_mines == 0` early return fires at the leaf) and
returns `None` for every rollout, so `get_monte_carlo_probabilities` hits
its `.expect("got a none back")` panic, modelled as `none`. -/
theorem single_forced_mine_scenario_panics :
    boardC2.remainingMines = 1 ∧ boardC2.unknownCount = 1
    ∧ (boardC2.retrieveCell ⟨0, 0⟩).minedNeighborCount = 1
    ∧ (boardC2.retrieveCell ⟨1, 1⟩).knowledge = KnowledgeState.Unknown
    ∧ (ai.ConstraintFrontier.fromBoard boardC2).map ai.ConstraintFrontier.points
        = some [⟨1, 1⟩]
    ∧ ai.getMonteCarloProbabilities boardC2 permsC2 = none :=
  ⟨by decide, by decide, by decide, by decide, by decide, by rfl⟩

/-- C3 counterexample.  `set_variable_state(v, Some(true))` followed by
`set_variable_state(v, None)` on a solver whose `global_counts` is empty
leaves the map with an explicit entry `true ↦ 0`, which is not
bit-identical to the absent key of the pre-assignment state: the
restoration is only exact up to reading absent keys as `0`. -/
theorem set_variable_state_leaves_zero_entry :
    ((constraint.setVariableState solverZero 0 (some true)).bind
      (fun cs1 => constraint.setVariableState cs1 0 none)).map
      (fun cs2 => cs2.globalCounts true) = some (some 0)
    ∧ solverZero.globalCounts true = none :=
  ⟨by decide, rfl⟩

/-- C3 (corrected).  Undo is the exact inverse of apply: in the frontier,
`update_point(p, m)` followed by `undo_update(p, m)` restores the global
`missing_mines` and every constraint tally exactly, provided each
decremented tally was positive (otherwise the source decrement itself
underflows); in the generic solver, `set_variable_state(v, Some(t))`
followed by `set_variable_state(v, None)` on a present, unassigned
variable restores `variable_lookup` exactly and restores `global_counts`
as read with absent keys counting `0` — but not bit-identically, since a
key absent before may be left present with an explicit `0`. -/
theorem update_undo_restore
    {S T : Type} [DecidableEq S] [DecidableEq T]
    (f : ai.ConstraintFrontier) (point : Point) (m : Bool)
    (hg : m = true → 1 ≤ f.missingMines)
    (hc : ∀ c ∈ f.constraints, point ∈ c.constrainedPoints →
      (m = true → 1 ≤ c.missingMines) ∧ (m = false → 1 ≤ c.missingEmpties))
    (cs cs1 cs2 : constraint.ConstraintSolver S T) (v : S) (t : T)
    (var : constraint.Variable S T)
    (hv : cs.variableLookup v = some var) (hval : var.value = none)
    (h1 : constraint.setVariableState cs v (some t) = some cs1)
    (h2 : constraint.setVariableState cs1 v none = some cs2) :
    (f.updatePoint point m).undoUpdate point m = f
    ∧ cs2.variableLookup = cs.variableLookup
    ∧ (∀ u, (cs2.globalCounts u).getD 0 = (cs.globalCounts u).getD 0)
    ∧ cs2.variableToConstraints = cs.variableToConstraints :=
  ⟨undo_update_exact f point m hg hc,
   setVariableState_some_then_none cs cs1 cs2 v t var hv hval h1 h2⟩

/-- C3 witness: the theorem applied to the `boardC2` frontier with its
centre point assigned mine, and to `solverZero` with its variable set to
`true` and back. -/
theorem update_undo_restore_witness :
    (frontierC2.updatePoint ⟨1, 1⟩ true).undoUpdate ⟨1, 1⟩ true = frontierC2
    ∧ solverZero2.variableLookup = solverZero.variableLookup
    ∧ (∀ u, (solverZero2.globalCounts u).getD 0 = (solverZero.globalCounts u).getD 0)
    ∧ solverZero2.variableToConstraints = solverZero.variableToConstraints :=
  update_undo_restore frontierC2 ⟨1, 1⟩ true (by decide) (by decide)
    solverZero solverZero1 solverZero2 0 true ⟨0, none, [true, false]⟩ (by decide) rfl
    (Option.some_get _).symm (Option.some_get _).symm

/-- C4 counterexample.  On `boardC4` the flagged cell `(0,1)` lies next to
the revealed cell `(0,0)`, and `ConstraintFrontier::from_board` puts it
into the frontier `points` (its filter is `!is_known()`, which admits
flags), so a flagged cell is a frontier variable. -/
theorem flagged_point_in_frontier :
    Point.mk 0 1 ∈ ((ai.ConstraintFrontier.fromBoard boardC4).map
      ai.ConstraintFrontier.points).getD []
    ∧ (boardC4.retrieveCell ⟨0, 1⟩).knowledge = KnowledgeState.Flag :=
  ⟨by decide, by decide⟩

/-- C6 (confirmed).  Whenever a border cell's already-resolved mined
neighbors exceed its `mined_neighbor_count`, or the resulting
`missing_mines` exceeds its unknown-neighbor count, `build_constraints`
aborts with the overflow panic of the underflowing `usize` subtraction (a
default Rust build), modelled as `none`; the value is never clamped. -/
theorem build_constraints_aborts_on_negative (board : Board) (points : List Point)
    (p : Point) (hp : p ∈ points)
    (hbad : (board.retrieveCell p).minedNeighborCount < board.countAssumedMinedNeighbors p
      ∨ (board.countAssumedMinedNeighbors p ≤ (board.retrieveCell p).minedNeighborCount ∧
         ((board.neighborCellsFromPoint p).filter (fun c => c.knowledge.isUnknown)).length
           < (board.retrieveCell p).minedNeighborCount - board.countAssumedMinedNeighbors p)) :
    ai.ConstraintFrontier.buildConstraints board points = none := by
  apply mapM_option_eq_none _ points p hp
  rcases hbad with h | ⟨h1, h2⟩
  · have hno : ¬ (board.countAssumedMinedNeighbors p ≤
        (board.retrieveCell p).minedNeighborCount) := by omega
    simp [ai.checkedSub, hno]
  · have hno : ¬ ((board.retrieveCell p).minedNeighborCount -
        board.countAssumedMinedNeighbors p ≤
        (List.filter (fun c => c.knowledge.isUnknown)
          (board.neighborCellsFromPoint p)).length) := by omega
    simp [ai.checkedSub, h1, hno]

/-- C6 witness: on `boardC6` the revealed corner reports zero mined
neighbors while one neighbor is already flagged, and constraint
construction aborts. -/
theorem build_constraints_aborts_on_negative_witness :
    (Point.mk 0 0 ∈ [Point.mk 0 0]
     ∧ (boardC6.retrieveCell ⟨0, 0⟩).minedNeighborCount
         < boardC6.countAssumedMinedNeighbors ⟨0, 0⟩)
    ∧ ai.ConstraintFrontier.buildConstraints boardC6 [⟨0, 0⟩] = none :=
  ⟨⟨by decide, by decide⟩,
   build_constraints_aborts_on_negative boardC6 [⟨0, 0⟩] ⟨0, 0⟩ (by decide)
     (Or.inl (by decide))⟩

/-- C5 (confirmed).  In `_backtrack`, after the tentative assignment
produces `cs1`, the solver recurses only when the gate passes, and the
gate passing implies every constraint attached to the assigned variable
passed `check_constraint` and every *other* variable those constraints
constrain still has a non-empty `consistent_states_for_variable` (the
source in fact also checks the assigned variable itself); when the gate
fails the loop iteration undoes the tentative assignment and moves to the
next domain value without recursing. -/
theorem forward_check_gating {S T : Type} [DecidableEq S] [DecidableEq T]
    (recur : constraint.ConstraintSolver S T → Finset Nat →
      Option (constraint.BTResult S T))
    (v : S) (csk cs1 : constraint.ConstraintSolver S T) (availk : Finset Nat) (st : T)
    (h1 : constraint.setVariableState csk v (some st) = some cs1) :
    (constraint.gate cs1 v = some true →
      constraint.constraintsAreSatisfied cs1 v = some true ∧
      ∀ var, cs1.variableLookup v = some var →
        ∀ c ∈ cs1.variableToConstraints var.id,
          ∀ w ∈ c.getConstrainedVariableIds, w ≠ v →
            c.consistentStatesForVariable cs1.variableLookup w ≠ [])
    ∧ (constraint.gate cs1 v = some false →
      constraint.backtrackStep recur v (some (Sum.inr (csk, availk))) st
        = (constraint.setVariableState cs1 v none).map
            (fun cs3 => Sum.inr (cs3, availk))) := by
  constructor
  · intro hgate
    have hchk : constraint.constraintsAreSatisfied cs1 v = some true ∧
        constraint.forwardCheck cs1 v = some true := by
      unfold constraint.gate at hgate
      cases hcs : constraint.constraintsAreSatisfied cs1 v with
      | none => rw [hcs] at hgate; simp at hgate
      | some a =>
        rw [hcs] at hgate
        cases a with
        | false => simp at hgate
        | true => exact ⟨rfl, by simpa using hgate⟩
    refine ⟨hchk.1, ?_⟩
    intro var hvar c hcmem w hw hwv
    have hfc := hchk.2
    unfold constraint.forwardCheck at hfc
    rw [hvar] at hfc
    simp only [Option.bind_eq_bind, Option.some_bind, Option.pure_def,
      Option.some.injEq, List.all_eq_true, Bool.not_eq_true'] at hfc
    have hw2 := hfc c hcmem w hw
    intro hnil
    rw [hnil] at hw2
    simp at hw2
  · intro hgate
    simp only [constraint.backtrackStep, h1, hgate]
    cases h3 : constraint.setVariableState cs1 v none <;> simp [h3]

/-- C5 witness: the gate equations instantiated on `solverFail` after
tentatively assigning `true` to its variable. -/
theorem forward_check_gating_witness :
    (constraint.gate solverFail1 0 = some true →
      constraint.constraintsAreSatisfied solverFail1 0 = some true ∧
      ∀ var, solverFail1.variableLookup 0 = some var →
        ∀ c ∈ solverFail1.variableToConstraints var.id,
          ∀ w ∈ c.getConstrainedVariableIds, w ≠ 0 →
            c.consistentStatesForVariable solverFail1.variableLookup w ≠ [])
    ∧ (constraint.gate solverFail1 0 = some false →
      constraint.backtrackStep (fun _ _ => none) 0
        (some (Sum.inr (solverFail, (∅ : Finset Nat)))) true
        = (constraint.setVariableState solverFail1 0 none).map
            (fun cs3 => Sum.inr (cs3, (∅ : Finset Nat)))) :=
  forward_check_gating (fun _ _ => none) 0 solverFail solverFail1 ∅ true
    (Option.some_get _).symm

/-- C9 counterexample.  Two `backtrack` runs with the
`DegreeSelectionStrategy` on the same solver state — the same variables
and the same constraint graph — return different completed assignments
when the `HashMap` key iteration produces the points slice in different
orders: with `[0, 1]` variable `0` ends up `false`, with `[1, 0]` it ends
up `true`. -/
theorem degree_backtrack_order_dependent :
    assignAt (constraint.ConstraintSolver.backtrack
      constraint.DegreeSelectionStrategy.getNextIndex 5 solver9 [0, 1]) 0 = some false
    ∧ assignAt (constraint.ConstraintSolver.backtrack
      constraint.DegreeSelectionStrategy.getNextIndex 5 solver9 [1, 0]) 0 = some true :=
  ⟨by decide, by decide⟩

/-- C9 (corrected).  With the variable iteration order fixed in addition
to the selection strategy and the value-trial order, `backtrack` is a
deterministic function: two invocations on equal solver states and equal
key orders return equal results. -/
theorem backtrack_deterministic_for_fixed_order {S T : Type}
    [DecidableEq S] [DecidableEq T] (fuel : Nat)
    (cs1 cs2 : constraint.ConstraintSolver S T) (keys1 keys2 : List S)
    (hcs : cs1 = cs2) (hkeys : keys1 = keys2) :
    constraint.ConstraintSolver.backtrack
      constraint.DegreeSelectionStrategy.getNextIndex fuel cs1 keys1
    = constraint.ConstraintSolver.backtrack
      constraint.DegreeSelectionStrategy.getNextIndex fuel cs2 keys2 := by
  subst hcs; subst hkeys; rfl

/-- C9 witness: determinism instantiated on the two-variable solver. -/
theorem backtrack_deterministic_for_fixed_order_witness :
    constraint.ConstraintSolver.backtrack
      constraint.DegreeSelectionStrategy.getNextIndex 5 solver9 [0, 1]
    = constraint.ConstraintSolver.backtrack
      constraint.DegreeSelectionStrategy.getNextIndex 5 solver9 [0, 1] :=
  backtrack_deterministic_for_fixed_order 5 solver9 solver9 [0, 1] [0, 1] rfl rfl

/-- C10 counterexample.  When a variable carries a pre-assigned value at
entry, a failed `_backtrack` does not restore the entry state: on
`solverPre` (variable `0` assigned `true`, `global_counts = {true ↦ 1}`)
the failed search returns with the count for `true` at `0` and the
variable cleared to `None`, both different from their entry values. -/
theorem backtrack_failure_not_atomic_when_preassigned :
    (constraint.ConstraintSolver.backtrack
      constraint.DegreeSelectionStrategy.getNextIndex 5 solverPre [0]).map
      (fun r => ((r.1.globalCounts true).getD 0,
                 (r.1.variableLookup 0).map constraint.Variable.value,
                 r.2.2.isNone)) = some (0, some none, true)
    ∧ (solverPre.globalCounts true).getD 0 = 1
    ∧ (solverPre.variableLookup 0).map constraint.Variable.value = some (some true) :=
  ⟨by decide, by decide, by decide⟩

theorem foldl_searchStep_inl (point : Point)
    (recur : ai.ConstraintFrontier → ai.ConstraintFrontier × Option (List Point)) :
    ∀ (states : List Bool) (r : ai.ConstraintFrontier × Option (List Point)),
      states.foldl (ai.searchStep point recur) (Sum.inl r) = Sum.inl r := by
  intro states
  induction states with
  | nil => intro r; rfl
  | cons s states ih => intro r; rw [List.foldl_cons]; exact ih r

theorem satisfying_fold_eq : ∀ (l : List ai.Constraint) (b1 b2 : Bool),
    l.foldl (fun acc c => (acc.1 && decide (0 < c.missingMines),
                           acc.2 && decide (0 < c.missingEmpties))) (b1, b2)
    = (b1 && l.all (fun c => decide (0 < c.missingMines)),
       b2 && l.all (fun c => decide (0 < c.missingEmpties))) := by
  intro l
  induction l with
  | nil => intro b1 b2; simp
  | cons c l ih =>
    intro b1 b2
    rw [List.foldl_cons, ih]
    simp [Bool.and_assoc]

theorem mem_satisfyingAssignments (f : ai.ConstraintFrontier) (point : Point) (st : Bool)
    (h : st ∈ f.satisfyingAssignments point) :
    ∀ c ∈ f.constraints, point ∈ c.constrainedPoints →
      (st = true → 1 ≤ c.missingMines) ∧ (st = false → 1 ≤ c.missingEmpties) := by
  intro c hcmem hpmem
  unfold ai.ConstraintFrontier.satisfyingAssignments at h
  rw [satisfying_fold_eq] at h
  simp only [Bool.true_and] at h
  have hcf : c ∈ f.constraints.filter (fun c => decide (point ∈ c.constrainedPoints)) :=
    List.mem_filter.mpr ⟨hcmem, by simpa using hpmem⟩
  constructor
  · rintro rfl
    by_cases ha1 : (f.constraints.filter (fun c => decide (point ∈ c.constrainedPoints))).all
        (fun c => decide (0 < c.missingMines)) = true
    · have := List.all_eq_true.mp ha1 c hcf
      simp at this; omega
    · rw [Bool.not_eq_true] at ha1
      by_cases ha2 : (f.constraints.filter (fun c => decide (point ∈ c.constrainedPoints))).all
          (fun c => decide (0 < c.missingEmpties)) = true
      · simp [ha1, ha2] at h
      · rw [Bool.not_eq_true] at ha2
        simp [ha1, ha2] at h
  · rintro rfl
    by_cases ha2 : (f.constraints.filter (fun c => decide (point ∈ c.constrainedPoints))).all
        (fun c => decide (0 < c.missingEmpties)) = true
    · have := List.all_eq_true.mp ha2 c hcf
      simp at this; omega
    · rw [Bool.not_eq_true] at ha2
      by_cases ha1 : (f.constraints.filter (fun c => decide (point ∈ c.constrainedPoints))).all
          (fun c => decide (0 < c.missingMines)) = true
      · simp [ha1, ha2] at h
      · rw [Bool.not_eq_true] at ha1
        simp [ha1, ha2] at h

theorem backtrackingSearch_spec :
    ∀ (pts : List Point) (f : ai.ConstraintFrontier),
      (∀ f1, ai.ConstraintFrontier.backtrackingSearch f pts = (f1, none) → f1 = f)
      ∧ (∀ f1 l, ai.ConstraintFrontier.backtrackingSearch f pts = (f1, some l) →
          f.missingMines = f1.missingMines + l.length ∧ 1 ≤ f1.missingMines
          ∧ l ⊆ pts ∧ (pts.Nodup → l.Nodup)) := by
  intro pts
  induction pts with
  | nil =>
    intro f
    constructor
    · intro f1 h
      by_cases hm : f.missingMines = 0
      · simp [ai.ConstraintFrontier.backtrackingSearch, hm] at h
        exact h.symm
      · simp [ai.ConstraintFrontier.backtrackingSearch, hm] at h
    · intro f1 l h
      by_cases hm : f.missingMines = 0
      · simp [ai.ConstraintFrontier.backtrackingSearch, hm] at h
      · simp [ai.ConstraintFrontier.backtrackingSearch, hm] at h
        obtain ⟨h1, h2⟩ := h
        subst h1
        subst h2
        simp
        omega
  | cons point rest ih =>
    intro f
    by_cases hm : f.missingMines = 0
    · constructor
      · intro f1 h
        simp [ai.ConstraintFrontier.backtrackingSearch, hm] at h
        exact h.symm
      · intro f1 l h
        simp [ai.ConstraintFrontier.backtrackingSearch, hm] at h
    · have hstep : ∀ (states : List Bool),
          (∀ st ∈ states, st ∈ f.satisfyingAssignments point) →
          (∀ fEnd, states.foldl (ai.searchStep point
              (fun f1 => ai.ConstraintFrontier.backtrackingSearch f1 rest)) (Sum.inr f)
            = Sum.inr fEnd → fEnd = f)
          ∧ (∀ f2 ores, states.foldl (ai.searchStep point
              (fun f1 => ai.ConstraintFrontier.backtrackingSearch f1 rest)) (Sum.inr f)
            = Sum.inl (f2, ores) →
            ∃ l, ores = some l ∧ f.missingMines = f2.missingMines + l.length
              ∧ 1 ≤ f2.missingMines ∧ l ⊆ point :: rest
              ∧ ((point :: rest).Nodup → l.Nodup)) := by
        intro states
        induction states with
        | nil =>
          intro _
          constructor
          · intro fEnd h
            simp only [List.foldl_nil, Sum.inr.injEq] at h
            exact h.symm
          · intro f2 ores h
            simp only [List.foldl_nil] at h
            cases h
        | cons st states ihs =>
          intro hmem
          have hst : st ∈ f.satisfyingAssignments point := hmem st (by simp)
          have hpos := mem_satisfyingAssignments f point st hst
          have hg : st = true → 1 ≤ f.missingMines := fun _ => by omega
          have hundo : (f.updatePoint point st).undoUpdate point st = f :=
            undo_update_exact f point st hg hpos
          have hmem2 : ∀ s ∈ states, s ∈ f.satisfyingAssignments point :=
            fun s hs => hmem s (List.mem_cons_of_mem _ hs)
          cases hrec : ai.ConstraintFrontier.backtrackingSearch
              (f.updatePoint point st) rest with
          | mk f2 ores =>
            cases ores with
            | none =>
              have hf2 : f2 = f.updatePoint point st := (ih _).1 f2 hrec
              have hacc : ai.searchStep point
                  (fun f1 => ai.ConstraintFrontier.backtrackingSearch f1 rest)
                  (Sum.inr f) st = Sum.inr f := by
                simp only [ai.searchStep, hrec, hf2, hundo]
              rw [List.foldl_cons, hacc]
              exact ihs hmem2
            | some ch =>
              have hch := (ih _).2 f2 ch hrec
              have hacc : ai.searchStep point
                  (fun f1 => ai.ConstraintFrontier.backtrackingSearch f1 rest)
                  (Sum.inr f) st
                  = Sum.inl (f2, some (if st then ch ++ [point] else ch)) := by
                simp only [ai.searchStep, hrec]
              rw [List.foldl_cons, hacc, foldl_searchStep_inl]
              constructor
              · intro fEnd h; cases h
              · intro f2x ores h
                rw [Sum.inl.injEq, Prod.mk.injEq] at h
                obtain ⟨hf2x, hores⟩ := h
                subst hf2x
                have harith := hch.1
                have hge := hch.2.1
                have hsub := hch.2.2.1
                have hndf := hch.2.2.2
                cases st with
                | false =>
                  refine ⟨ch, by simpa using hores.symm, ?_, hge, ?_, ?_⟩
                  · simpa [ai.ConstraintFrontier.updatePoint] using harith
                  · exact fun x hx => List.mem_cons_of_mem _ (hsub hx)
                  · intro hnd
                    exact hndf (List.nodup_cons.mp hnd).2
                | true =>
                  refine ⟨ch ++ [point], by simpa using hores.symm, ?_, hge, ?_, ?_⟩
                  · simp only [ai.ConstraintFrontier.updatePoint] at harith
                    simp only [List.length_append, List.length_cons, List.length_nil]
                    simp at harith
                    omega
                  · intro x hx
                    rcases List.mem_append.mp hx with hx | hx
                    · exact List.mem_cons_of_mem _ (hsub hx)
                    · simp at hx
                      subst hx
                      exact List.mem_cons_self _ _
                  · intro hnd
                    have hr := List.nodup_cons.mp hnd
                    rw [List.nodup_append]
                    refine ⟨hndf hr.2, List.nodup_singleton _, ?_⟩
                    intro x hx hx2
                    simp at hx2
                    subst hx2
                    exact hr.1 (hsub hx)
      constructor
      · intro f1 h
        simp only [ai.ConstraintFrontier.backtrackingSearch, if_neg hm] at h
        by_cases hemp : (f.satisfyingAssignments point).isEmpty
        · simp only [hemp, if_true] at h
          rw [Prod.mk.injEq] at h
          exact h.1.symm
        · rw [if_neg (by simp [hemp])] at h
          cases hfold : (f.satisfyingAssignments point).foldl (ai.searchStep point
              (fun f1 => ai.ConstraintFrontier.backtrackingSearch f1 rest))
              (Sum.inr f) with
          | inl r =>
            obtain ⟨ra, rb⟩ := r
            rw [hfold] at h
            have h2 : (ra, rb) = (f1, none) := h
            rw [Prod.mk.injEq] at h2
            obtain ⟨l, hl, _⟩ := (hstep _ (fun s hs => hs)).2 ra rb hfold
            rw [h2.2] at hl
            simp at hl
          | inr fEnd =>
            rw [hfold] at h
            have h2 : (fEnd, (none : Option (List Point))) = (f1, none) := h
            rw [Prod.mk.injEq] at h2
            rw [← h2.1]
            exact (hstep _ (fun s hs => hs)).1 fEnd hfold
      · intro f1 l h
        simp only [ai.ConstraintFrontier.backtrackingSearch, if_neg hm] at h
        by_cases hemp : (f.satisfyingAssignments point).isEmpty
        · simp only [hemp, if_true] at h
          rw [Prod.mk.injEq] at h
          exact absurd h.2 (by simp)
        · rw [if_neg (by simp [hemp])] at h
          cases hfold : (f.satisfyingAssignments point).foldl (ai.searchStep point
              (fun f1 => ai.ConstraintFrontier.backtrackingSearch f1 rest))
              (Sum.inr f) with
          | inl r =>
            obtain ⟨ra, rb⟩ := r
            rw [hfold] at h
            have h2 : (ra, rb) = (f1, some l) := h
            rw [Prod.mk.injEq] at h2
            obtain ⟨l0, hl0, harith, hge, hsub, hnd⟩ :=
              (hstep _ (fun s hs => hs)).2 ra rb hfold
            rw [h2.2] at hl0
            simp only [Option.some.injEq] at hl0
            subst hl0
            rw [← h2.1]
            exact ⟨harith, hge, hsub, hnd⟩
          | inr fEnd =>
            rw [hfold] at h
            have h2 : (fEnd, (none : Option (List Point))) = (f1, some l) := h
            rw [Prod.mk.injEq] at h2
            exact absurd h2.2 (by simp)

/-- C1: the conservation claim fails.  Whenever `backtracking_search`
completes with `Some`, the number of points assigned the mine value is
strictly fewer than the `missing_mines` captured when the frontier was
built, because the entry check `if self.missing_mines == 0 { return None }`
refuses to return an assignment once every mine has been placed.  A
completed rollout therefore never assigns exactly `remaining_mines()`
mines. -/
theorem conservation_violated (f f1 : ai.ConstraintFrontier) (pts l : List Point)
    (h : ai.ConstraintFrontier.backtrackingSearch f pts = (f1, some l)) :
    f.missingMines = f1.missingMines + l.length ∧ 1 ≤ f1.missingMines
    ∧ l.length < f.missingMines := by
  obtain ⟨h1, h2, _, _⟩ := (backtrackingSearch_spec pts f).2 f1 l h
  exact ⟨h1, h2, by omega⟩

theorem conservation_violated_witness :
    frontierOK.missingMines = frontierOKEnd.missingMines + ([] : List Point).length
    ∧ 1 ≤ frontierOKEnd.missingMines
    ∧ ([] : List Point).length < frontierOK.missingMines :=
  conservation_violated frontierOK frontierOKEnd frontierOK.points [] (by decide)

theorem mcStep_none (board : Board) (perms : List (List Point))
    (fr : ai.ConstraintFrontier) (i : Nat)
    (hfb : ai.ConstraintFrontier.fromBoard board = some fr)
    (hs : (ai.ConstraintFrontier.backtrackingSearch fr (perms.getD i fr.points)).2 = none) :
    ∀ acc, ai.mcStep board perms acc i = none := by
  intro acc
  unfold ai.mcStep
  rw [hfb]
  simp only [Option.bind_eq_bind, Option.some_bind]
  rw [hs]
  rfl

theorem foldlM_none_of_mem {α β : Type} (g : β → α → Option β) (x : α)
    (hx : ∀ acc, g acc x = none) :
    ∀ (l : List α) (acc : β), x ∈ l → l.foldlM g acc = none := by
  intro l
  induction l with
  | nil => intro acc h; cases h
  | cons a l ih =>
    intro acc h
    rw [List.foldlM_cons]
    rcases List.mem_cons.mp h with rfl | h
    · simp only [hx acc, Option.bind_eq_bind, Option.none_bind]
    · cases hg : g acc a with
      | none => simp only [Option.bind_eq_bind, Option.none_bind]
      | some b =>
        simp only [Option.bind_eq_bind, Option.some_bind, ih b h]

/-- C7: search exhaustion propagates.  If rollout `i` finds no solution,
`get_monte_carlo_probabilities` fails as a whole (the source panics at
`.expect("got a none back")`, modelled as `none`): the failed rollout is
never silently retried and no probability value is derived from it. -/
theorem search_failure_propagates (board : Board) (perms : List (List Point))
    (fr : ai.ConstraintFrontier) (i : Nat) (hi : i < ai.rollouts)
    (hfb : ai.ConstraintFrontier.fromBoard board = some fr)
    (hs : (ai.ConstraintFrontier.backtrackingSearch fr (perms.getD i fr.points)).2 = none) :
    ai.getMonteCarloProbabilities board perms = none := by
  unfold ai.getMonteCarloProbabilities
  rw [foldlM_none_of_mem _ i (mcStep_none board perms fr i hfb hs) _ _
    (List.mem_range.mpr hi)]
  rfl

theorem search_failure_propagates_witness :
    ((0 : Nat) < ai.rollouts
     ∧ ai.ConstraintFrontier.fromBoard boardC2 = some frontierC2
     ∧ (ai.ConstraintFrontier.backtrackingSearch frontierC2
          (permsC2.getD 0 frontierC2.points)).2 = none)
    ∧ ai.getMonteCarloProbabilities boardC2 permsC2 = none :=
  ⟨⟨by decide, by decide, by decide⟩,
   search_failure_propagates boardC2 permsC2 frontierC2 0 (by decide) (by decide)
     (by decide)⟩

theorem counts_foldl_apply : ∀ (l : List Point) (c0 : Point → Nat) (p : Point),
    (l.foldl (fun cnts m => Function.update cnts m (cnts m + 1)) c0) p
    = c0 p + l.count p := by
  intro l
  induction l with
  | nil => intro c0 p; simp
  | cons a l ih =>
    intro c0 p
    rw [List.foldl_cons, ih]
    by_cases hpa : p = a
    · subst hpa
      simp only [Function.update_same, List.count_cons_self]
      omega
    · simp only [Function.update_apply, if_neg hpa, List.count_cons]
      have : ¬ (a == p) = true := by simpa using fun h => hpa h.symm
      simp [this]

theorem mcFold_spec (board : Board) (perms : List (List Point))
    (fr : ai.ConstraintFrontier)
    (hfb : ai.ConstraintFrontier.fromBoard board = some fr) :
    ∀ (is : List Nat) (c0 : Point → Nat) (b0 : List Point)
      (c : Point → Nat) (b : List Point),
      is.foldlM (ai.mcStep board perms) (c0, b0) = some (c, b) →
      (∀ i ∈ is, ((ai.ConstraintFrontier.backtrackingSearch fr
          (perms.getD i fr.points)).2).isSome)
      ∧ (∀ p, c p = c0 p + (is.map (fun i =>
          ((ai.ConstraintFrontier.backtrackingSearch fr
            (perms.getD i fr.points)).2.getD []).count p)).sum)
      ∧ b = is.foldl (fun _ i => perms.getD i fr.points) b0 := by
  intro is
  induction is with
  | nil =>
    intro c0 b0 c b h
    simp only [List.foldlM_nil, Option.pure_def, Option.some.injEq, Prod.mk.injEq] at h
    obtain ⟨h1, h2⟩ := h
    subst h1
    subst h2
    refine ⟨by simp, by simp, by simp⟩
  | cons i is ih =>
    intro c0 b0 c b h
    rw [List.foldlM_cons] at h
    cases hsr : (ai.ConstraintFrontier.backtrackingSearch fr
        (perms.getD i fr.points)).2 with
    | none =>
      rw [mcStep_none board perms fr i hfb hsr (c0, b0)] at h
      simp at h
    | some mined =>
      have hstep : ai.mcStep board perms (c0, b0) i
          = some (mined.foldl (fun cnts m => Function.update cnts m (cnts m + 1)) c0,
                  perms.getD i fr.points) := by
        unfold ai.mcStep
        rw [hfb]
        simp only [Option.bind_eq_bind, Option.some_bind]
        rw [hsr]
        rfl
      rw [hstep] at h
      simp only [Option.bind_eq_bind, Option.some_bind] at h
      obtain ⟨hmem, hcount, hb⟩ := ih _ _ c b h
      refine ⟨?_, ?_, ?_⟩
      · intro j hj
        rcases List.mem_cons.mp hj with rfl | hj
        · rw [hsr]; rfl
        · exact hmem j hj
      · intro p
        rw [hcount p, counts_foldl_apply]
        simp only [List.map_cons, List.sum_cons, hsr, Option.getD_some]
        omega
      · rw [hb, List.foldl_cons]

theorem sum_map_ite_count : ∀ (is : List Nat) (g : Nat → Bool),
    (is.map (fun i => if g i then 1 else 0)).sum = (is.filter g).length := by
  intro is g
  induction is with
  | nil => simp
  | cons i is ih =>
    by_cases hg : g i
    · simp [hg, List.filter_cons, ih]
      omega
    · simp [hg, List.filter_cons, ih]

/-- C8: probability formula and bounds.  Every `(point, p)` pair returned
by `get_monte_carlo_probabilities` satisfies
`p = (number of rollouts whose assignment put a mine on the point) / rollouts`,
hence `0 ≤ p ≤ 1`, and the keys of the result are exactly the frontier
points (in the order the last rollout shuffled them). -/
theorem monte_carlo_probability_formula (board : Board) (perms : List (List Point))
    (fr : ai.ConstraintFrontier) (probs : List (Point × ℚ))
    (hfb : ai.ConstraintFrontier.fromBoard board = some fr)
    (hnd : fr.points.Nodup)
    (hperm : ∀ i, i < ai.rollouts → (perms.getD i fr.points).Perm fr.points)
    (hmc : ai.getMonteCarloProbabilities board perms = some probs) :
    (probs.map Prod.fst).Perm fr.points
    ∧ ∀ p q, (p, q) ∈ probs →
        q = (((List.range ai.rollouts).filter (fun i =>
            decide (p ∈ ((ai.ConstraintFrontier.backtrackingSearch fr
              (perms.getD i fr.points)).2.getD [])))).length : ℚ) / (ai.rollouts : ℚ)
        ∧ 0 ≤ q ∧ q ≤ 1 := by
  unfold ai.getMonteCarloProbabilities at hmc
  cases hfold : (List.range ai.rollouts).foldlM (ai.mcStep board perms)
      ((fun _ => 0 : Point → Nat), ([] : List Point)) with
  | none =>
    rw [hfold] at hmc
    exact Option.noConfusion
      (show (none : Option (List (Point × ℚ))) = some probs from hmc)
  | some res =>
    obtain ⟨c, b⟩ := res
    rw [hfold] at hmc
    have hmc2 : some (b.map (fun point => (point, (c point : ℚ) / (ai.rollouts : ℚ))))
        = some probs := hmc
    rw [Option.some.injEq] at hmc2
    obtain ⟨hmem, hcount, hb⟩ := mcFold_spec board perms fr hfb _ _ _ c b hfold
    have hblast : b = perms.getD 9 fr.points := by
      rw [hb]; rfl
    have h9 : (9 : Nat) < ai.rollouts := by norm_num [ai.rollouts]
    have hbperm : b.Perm fr.points := by
      rw [hblast]; exact hperm 9 h9
    constructor
    · rw [← hmc2, List.map_map]
      have hmapfst : List.map (Prod.fst ∘ fun point =>
          (point, (c point : ℚ) / (ai.rollouts : ℚ))) b = b :=
        (List.map_congr_left (fun a _ => rfl)).trans (List.map_id b)
      rw [hmapfst]
      exact hbperm
    · intro p q hpq
      rw [← hmc2] at hpq
      obtain ⟨p2, hp2, heq⟩ := List.mem_map.mp hpq
      rw [Prod.mk.injEq] at heq
      obtain ⟨hp1, hq⟩ := heq
      subst hp1
      subst hq
      have hcp := hcount p2
      have hmapeq : (List.range ai.rollouts).map (fun i =>
            ((ai.ConstraintFrontier.backtrackingSearch fr
              (perms.getD i fr.points)).2.getD []).count p2)
          = (List.range ai.rollouts).map (fun i =>
            if decide (p2 ∈ ((ai.ConstraintFrontier.backtrackingSearch fr
              (perms.getD i fr.points)).2.getD [])) then 1 else 0) := by
        apply List.map_congr_left
        intro i hi
        have hi2 : i < ai.rollouts := List.mem_range.mp hi
        have hptsnd : (perms.getD i fr.points).Nodup :=
          ((hperm i hi2).nodup_iff).mpr hnd
        have hsome := hmem i hi
        rw [Option.isSome_iff_exists] at hsome
        obtain ⟨ml, hml⟩ := hsome
        have hpair : ai.ConstraintFrontier.backtrackingSearch fr (perms.getD i fr.points)
            = ((ai.ConstraintFrontier.backtrackingSearch fr (perms.getD i fr.points)).1,
               some ml) := by
          rw [← hml]
        have hmlnd : ml.Nodup :=
          ((backtrackingSearch_spec (perms.getD i fr.points) fr).2 _ ml hpair).2.2.2 hptsnd
        rw [hml]
        simp only [Option.getD_some]
        by_cases hmemp : p2 ∈ ml
        · rw [if_pos (by simpa using hmemp), List.count_eq_one_of_mem hmlnd hmemp]
        · rw [if_neg (by simpa using hmemp), List.count_eq_zero_of_not_mem hmemp]
      rw [hmapeq, sum_map_ite_count] at hcp
      have hcp2 : c p2 = ((List.range ai.rollouts).filter (fun i =>
          decide (p2 ∈ ((ai.ConstraintFrontier.backtrackingSearch fr
            (perms.getD i fr.points)).2.getD [])))).length := by
        simpa using hcp
      refine ⟨by rw [hcp2], ?_, ?_⟩
      · positivity
      · rw [div_le_one (by norm_num [ai.rollouts])]
        rw [hcp2]
        have hlen : ((List.range ai.rollouts).filter (fun i =>
            decide (p2 ∈ ((ai.ConstraintFrontier.backtrackingSearch fr
              (perms.getD i fr.points)).2.getD [])))).length ≤ ai.rollouts := by
          calc ((List.range ai.rollouts).filter _).length
              ≤ (List.range ai.rollouts).length := List.length_filter_le _ _
            _ = ai.rollouts := List.length_range _
        exact_mod_cast hlen

set_option maxRecDepth 8000 in
theorem monte_carlo_probability_formula_witness :
    (ai.ConstraintFrontier.fromBoard boardOK = some frontierOK
     ∧ frontierOK.points.Nodup
     ∧ (∀ i, i < ai.rollouts →
         (permsOK.getD i frontierOK.points).Perm frontierOK.points)
     ∧ ai.getMonteCarloProbabilities boardOK permsOK = some probsOK)
    ∧ ((probsOK.map Prod.fst).Perm frontierOK.points
       ∧ ∀ p q, (p, q) ∈ probsOK →
           q = (((List.range ai.rollouts).filter (fun i =>
               decide (p ∈ ((ai.ConstraintFrontier.backtrackingSearch frontierOK
                 (permsOK.getD i frontierOK.points)).2.getD [])))).length : ℚ)
               / (ai.rollouts : ℚ)
           ∧ 0 ≤ q ∧ q ≤ 1) :=
  ⟨⟨by decide, by decide, by decide, by rfl⟩,
   monte_carlo_probability_formula boardOK permsOK frontierOK probsOK
     (by decide) (by decide) (by decide) (by rfl)⟩

theorem fromBoard_points (board : Board) (f : ai.ConstraintFrontier)
    (hf : ai.ConstraintFrontier.fromBoard board = some f) :
    f.points = ((board.size.points.map board.retrieveCell).filter
      (fun cell => !cell.knowledge.isKnown && board.hasKnownNeighbors cell.point)).map
      (fun cell => cell.point) := by
  have hf2 : (ai.ConstraintFrontier.buildConstraints board
      (((board.size.points.map board.retrieveCell).filter
        (fun cell => cell.knowledge.isKnown && board.hasUnknownNeighbors cell.point)).map
        (fun cell => cell.point))).bind
      (fun constraints => some
        ({ points := ((board.size.points.map board.retrieveCell).filter
             (fun cell => !cell.knowledge.isKnown && board.hasKnownNeighbors cell.point)).map
             (fun cell => cell.point),
           missingMines := if 0 ≤ board.remainingMines then board.remainingMines.toNat else 0,
           constraints := constraints } : ai.ConstraintFrontier)) = some f := hf
  rw [Option.bind_eq_some] at hf2
  obtain ⟨cl, _, hsome⟩ := hf2
  rw [Option.some.injEq] at hsome
  rw [← hsome]

/-- C4 (amended): the frontier built by `from_board` consists exactly of
the cells that are not known - unknown or flagged - and adjacent to at
least one known cell.  The claim that frontier cells are unknown fails on
flagged cells (see `flagged_point_in_frontier`); this characterization is
the one that holds. -/
theorem frontier_points_characterization (board : Board) (f : ai.ConstraintFrontier)
    (hf : ai.ConstraintFrontier.fromBoard board = some f)
    (hwf : ∀ q ∈ board.size.points, (board.retrieveCell q).point = q) :
    f.points = board.size.points.filter
      (fun q => !(board.retrieveCell q).knowledge.isKnown && board.hasKnownNeighbors q) := by
  rw [fromBoard_points board f hf]
  rw [List.filter_map]
  rw [List.map_map]
  have hmemsub : ∀ q ∈ board.size.points.filter
      ((fun cell => !cell.knowledge.isKnown && board.hasKnownNeighbors cell.point)
        ∘ board.retrieveCell), q ∈ board.size.points :=
    fun q hq => (List.mem_filter.mp hq).1
  calc List.map ((fun cell => cell.point) ∘ board.retrieveCell)
        (board.size.points.filter
          ((fun cell => !cell.knowledge.isKnown && board.hasKnownNeighbors cell.point)
            ∘ board.retrieveCell))
      = List.map id (board.size.points.filter
          ((fun cell => !cell.knowledge.isKnown && board.hasKnownNeighbors cell.point)
            ∘ board.retrieveCell)) := by
        apply List.map_congr_left
        intro q hq
        exact hwf q (hmemsub q hq)
    _ = board.size.points.filter
          ((fun cell => !cell.knowledge.isKnown && board.hasKnownNeighbors cell.point)
            ∘ board.retrieveCell) := List.map_id _
    _ = board.size.points.filter
          (fun q => !(board.retrieveCell q).knowledge.isKnown && board.hasKnownNeighbors q) := by
        apply List.filter_congr
        intro q hq
        simp only [Function.comp_apply]
        rw [hwf q hq]

theorem frontier_points_characterization_witness :
    (ai.ConstraintFrontier.fromBoard boardC4
       = some ((ai.ConstraintFrontier.fromBoard boardC4).getD frontierC2)
     ∧ (∀ q ∈ boardC4.size.points, (boardC4.retrieveCell q).point = q))
    ∧ ((ai.ConstraintFrontier.fromBoard boardC4).getD frontierC2).points
        = boardC4.size.points.filter
          (fun q => !(boardC4.retrieveCell q).knowledge.isKnown
            && boardC4.hasKnownNeighbors q) :=
  ⟨⟨by decide, by decide⟩,
   frontier_points_characterization boardC4 _ (by decide) (by decide)⟩

theorem foldl_backtrackStep_none {S T : Type} [DecidableEq S] [DecidableEq T]
    (recur : constraint.ConstraintSolver S T → Finset Nat →
      Option (constraint.BTResult S T)) (v : S) :
    ∀ (states : List T),
      states.foldl (constraint.backtrackStep recur v) none = none := by
  intro states
  induction states with
  | nil => rfl
  | cons st states ih => rw [List.foldl_cons]; exact ih

theorem foldl_backtrackStep_inl {S T : Type} [DecidableEq S] [DecidableEq T]
    (recur : constraint.ConstraintSolver S T → Finset Nat →
      Option (constraint.BTResult S T)) (v : S) :
    ∀ (states : List T) (r : constraint.BTResult S T),
      states.foldl (constraint.backtrackStep recur v) (some (Sum.inl r))
        = some (Sum.inl r) := by
  intro states
  induction states with
  | nil => intro r; rfl
  | cons st states ih => intro r; rw [List.foldl_cons]; exact ih r

theorem setVariableState_assign {S T : Type} [DecidableEq S] [DecidableEq T]
    (csk : constraint.ConstraintSolver S T) (v : S) (st : T)
    (var : constraint.Variable S T)
    (hlookk : csk.variableLookup v = some var) (hvalnone : var.value = none) :
    constraint.setVariableState csk v (some st)
      = some { csk with
          globalCounts := Function.update csk.globalCounts st
            (some ((csk.globalCounts st).getD 0 + 1)),
          variableLookup := Function.update csk.variableLookup v
            (some { var with value := some st }) } := by
  simp only [constraint.setVariableState, hlookk, hvalnone, Option.bind_eq_bind,
    Option.some_bind, Option.pure_def]

theorem setVariableState_unassign {S T : Type} [DecidableEq S] [DecidableEq T]
    (csk cs2 cs3 : constraint.ConstraintSolver S T) (v : S) (st : T)
    (var : constraint.Variable S T)
    (hlookk : csk.variableLookup v = some var) (hvalnone : var.value = none)
    (hlook2 : cs2.variableLookup = Function.update csk.variableLookup v
      (some { var with value := some st }))
    (hst2 : (cs2.globalCounts st).getD 0 = (csk.globalCounts st).getD 0 + 1)
    (hother : ∀ t, t ≠ st → (cs2.globalCounts t).getD 0 = (csk.globalCounts t).getD 0)
    (hv2c2 : cs2.variableToConstraints = csk.variableToConstraints)
    (hset2 : constraint.setVariableState cs2 v none = some cs3) :
    cs3.variableLookup = csk.variableLookup
    ∧ (∀ t, (cs3.globalCounts t).getD 0 = (csk.globalCounts t).getD 0)
    ∧ cs3.variableToConstraints = csk.variableToConstraints := by
  have hlk : cs2.variableLookup v = some { var with value := some st } := by
    rw [hlook2, Function.update_same]
  cases hc : cs2.globalCounts st with
  | none =>
    exfalso
    rw [hc] at hst2
    simp at hst2
  | some c0 =>
    have hc0 : c0 = (csk.globalCounts st).getD 0 + 1 := by
      rw [hc] at hst2; simpa using hst2
    simp only [constraint.setVariableState, hlk, Option.bind_eq_bind, Option.some_bind,
      Option.pure_def, hc, Option.getD_some] at hset2
    have hne : ¬ (c0 = 0) := by omega
    simp only [hne, if_false, Option.some_bind, Option.some.injEq] at hset2
    subst hset2
    refine ⟨?_, ?_, hv2c2⟩
    · funext w
      by_cases hw : w = v
      · subst hw
        have hvar : ({ id := var.id, value := none, possible := var.possible } :
            constraint.Variable S T) = var := by cases var; simp_all
        simp [Function.update_apply, hvar, hlookk]
      · simp only [Function.update_apply, if_neg hw]
        rw [hlook2]
        simp [Function.update_apply, hw]
    · intro t
      by_cases ht : t = st
      · subst ht
        simp only [Function.update_same, Option.getD_some]
        omega
      · simp only [Function.update_apply, if_neg ht]
        exact hother t ht

/-- C10 (amended): when `_backtrack` returns `None` and every variable on
the available indices was unassigned at entry, the solver state is exactly
restored: `variable_lookup` equals the entry map, every `global_counts`
counter read with default `0` is back to its entry value,
`variable_to_constraints` is untouched, and `available_indices` is
restored to its entry contents.  Without the entry-unassigned hypothesis
restoration fails - see `backtrack_failure_not_atomic_when_preassigned` -
and `global_counts` may gain explicit zero entries, observable only
without the default-0 read. -/
theorem backtrack_failure_restores_state {S T : Type} [DecidableEq S] [DecidableEq T]
    (sel : constraint.SelFn S T) (points : List S) :
    ∀ (fuel : Nat) (cs csR : constraint.ConstraintSolver S T) (avail availR : Finset Nat),
      points.Nodup →
      (∀ i ∈ avail, ((points.get? i).bind cs.variableLookup).map
        constraint.Variable.value = some none) →
      constraint.backtrackAux sel points fuel cs avail = some (csR, availR, none) →
      csR.variableLookup = cs.variableLookup
      ∧ (∀ t, (csR.globalCounts t).getD 0 = (cs.globalCounts t).getD 0)
      ∧ csR.variableToConstraints = cs.variableToConstraints
      ∧ availR = avail := by
  intro fuel
  induction fuel with
  | zero =>
    intro cs csR avail availR hnd hv h
    exact Option.noConfusion h
  | succ fuel IH =>
    intro cs csR avail availR hnd hv h
    rw [constraint.backtrackAux] at h
    cases hsel : sel cs.variableLookup cs.variableToConstraints points avail with
    | none =>
      simp only [hsel] at h
      rw [Option.some.injEq] at h
      have h3 : (some (fun _ => none) : Option (S → Option T))
          = (none : Option (S → Option T)) := congrArg (fun r => r.2.2) h
      exact Option.noConfusion h3
    | some index =>
      simp only [hsel] at h
      by_cases hidx : index ∈ avail
      · rw [if_pos hidx] at h
        cases hget : points.get? index with
        | none =>
          simp only [hget] at h
          exact Option.noConfusion h
        | some v =>
          simp only [hget] at h
          cases hlook : cs.variableLookup v with
          | none =>
            simp only [hlook] at h
            exact Option.noConfusion h
          | some var =>
            simp only [hlook] at h
            have hvalnone : var.value = none := by
              have hvi := hv index hidx
              rw [hget] at hvi
              have hvi2 : (cs.variableLookup v).map constraint.Variable.value
                  = some none := hvi
              rw [hlook] at hvi2
              simpa using hvi2
            have hinv : ∀ (states : List T) (csk : constraint.ConstraintSolver S T),
                csk.variableLookup = cs.variableLookup →
                (∀ t, (csk.globalCounts t).getD 0 = (cs.globalCounts t).getD 0) →
                csk.variableToConstraints = cs.variableToConstraints →
                ∀ z, states.foldl (constraint.backtrackStep
                    (fun cs1 avail1 => constraint.backtrackAux sel points fuel cs1 avail1) v)
                    (some (Sum.inr (csk, avail.erase index))) = some z →
                  (∀ csE availE, z = Sum.inr (csE, availE) →
                    csE.variableLookup = cs.variableLookup
                    ∧ (∀ t, (csE.globalCounts t).getD 0 = (cs.globalCounts t).getD 0)
                    ∧ csE.variableToConstraints = cs.variableToConstraints
                    ∧ availE = avail.erase index)
                  ∧ (∀ r, z = Sum.inl r → r.2.2.isSome) := by
              intro states
              induction states with
              | nil =>
                intro csk hk1 hk2 hk3 z hf
                rw [List.foldl_nil, Option.some.injEq] at hf
                subst hf
                constructor
                · intro csE availE hz
                  rw [Sum.inr.injEq, Prod.mk.injEq] at hz
                  exact ⟨hz.1 ▸ hk1, hz.1 ▸ hk2, hz.1 ▸ hk3, hz.2.symm⟩
                · intro r hz
                  exact Sum.noConfusion hz
              | cons st states ihs =>
                intro csk hk1 hk2 hk3 z hf
                rw [List.foldl_cons] at hf
                have hlookk : csk.variableLookup v = some var := by
                  rw [hk1]; exact hlook
                have hset := setVariableState_assign csk v st var hlookk hvalnone
                cases hg : constraint.gate { csk with
                    globalCounts := Function.update csk.globalCounts st
                      (some ((csk.globalCounts st).getD 0 + 1)),
                    variableLookup := Function.update csk.variableLookup v
                      (some { var with value := some st }) } v with
                | none =>
                  simp only [constraint.backtrackStep, hset, hg] at hf
                  rw [foldl_backtrackStep_none] at hf
                  exact Option.noConfusion hf
                | some gb =>
                  cases gb with
                  | false =>
                    cases hset2 : constraint.setVariableState { csk with
                        globalCounts := Function.update csk.globalCounts st
                          (some ((csk.globalCounts st).getD 0 + 1)),
                        variableLookup := Function.update csk.variableLookup v
                          (some { var with value := some st }) } v none with
                    | none =>
                      simp only [constraint.backtrackStep, hset, hg, hset2] at hf
                      rw [foldl_backtrackStep_none] at hf
                      exact Option.noConfusion hf
                    | some cs3 =>
                      simp only [constraint.backtrackStep, hset, hg, hset2] at hf
                      have hun := setVariableState_unassign csk { csk with
                          globalCounts := Function.update csk.globalCounts st
                            (some ((csk.globalCounts st).getD 0 + 1)),
                          variableLookup := Function.update csk.variableLookup v
                            (some { var with value := some st }) } cs3 v st var hlookk
                        hvalnone rfl
                        (by simp [Function.update_same])
                        (by intro t ht; simp [Function.update_apply, ht])
                        rfl hset2
                      exact ihs cs3 (hun.1.trans hk1)
                        (fun t => (hun.2.1 t).trans (hk2 t)) (hun.2.2.trans hk3) z hf
                  | true =>
                    cases hrec : constraint.backtrackAux sel points fuel { csk with
                        globalCounts := Function.update csk.globalCounts st
                          (some ((csk.globalCounts st).getD 0 + 1)),
                        variableLookup := Function.update csk.variableLookup v
                          (some { var with value := some st }) } (avail.erase index) with
                    | none =>
                      simp only [constraint.backtrackStep, hset, hg, hrec] at hf
                      rw [foldl_backtrackStep_none] at hf
                      exact Option.noConfusion hf
                    | some res2 =>
                      obtain ⟨cs2, avail2, ores2⟩ := res2
                      cases ores2 with
                      | some ch =>
                        simp only [constraint.backtrackStep, hset, hg, hrec] at hf
                        rw [foldl_backtrackStep_inl, Option.some.injEq] at hf
                        subst hf
                        constructor
                        · intro csE availE hz
                          exact Sum.noConfusion hz
                        · intro r hz
                          rw [Sum.inl.injEq] at hz
                          rw [← hz]
                          rfl
                      | none =>
                        have hv1 : ∀ i ∈ avail.erase index,
                            ((points.get? i).bind (Function.update csk.variableLookup v
                              (some { var with value := some st }))).map
                              constraint.Variable.value = some none := by
                          intro i hi
                          have hine := Finset.mem_erase.mp hi
                          have hvi := hv i hine.2
                          cases hgeti : points.get? i with
                          | none =>
                            rw [hgeti] at hvi
                            exact Option.noConfusion hvi
                          | some w =>
                            rw [hgeti] at hvi
                            have hvi2 : (cs.variableLookup w).map
                                constraint.Variable.value = some none := hvi
                            have hilt : i < points.length := by
                              by_contra hc
                              rw [List.get?_eq_none.mpr (le_of_not_lt hc)] at hgeti
                              exact Option.noConfusion hgeti
                            have hwv : w ≠ v := by
                              intro hwv
                              apply hine.1
                              apply List.get?_inj hilt hnd
                              rw [hgeti, hget, hwv]
                            have hlw : (Function.update csk.variableLookup v
                                (some { var with value := some st })) w
                                = cs.variableLookup w := by
                              rw [Function.update_apply, if_neg hwv, hk1]
                            simp only [Option.some_bind]
                            rw [hlw]
                            exact hvi2
                        have hIHres := IH _ cs2 (avail.erase index) avail2 hnd hv1 hrec
                        cases hset2 : constraint.setVariableState cs2 v none with
                        | none =>
                          simp only [constraint.backtrackStep, hset, hg, hrec, hset2] at hf
                          rw [foldl_backtrackStep_none] at hf
                          exact Option.noConfusion hf
                        | some cs3 =>
                          simp only [constraint.backtrackStep, hset, hg, hrec, hset2] at hf
                          have hun := setVariableState_unassign csk cs2 cs3 v st var hlookk
                            hvalnone
                            (by rw [hIHres.1])
                            (by rw [hIHres.2.1 st]; simp [Function.update_same])
                            (by intro t ht; rw [hIHres.2.1 t]
                                simp [Function.update_apply, ht])
                            (by rw [hIHres.2.2.1])
                            hset2
                          rw [hIHres.2.2.2] at hf
                          exact ihs cs3 (hun.1.trans hk1)
                            (fun t => (hun.2.1 t).trans (hk2 t)) (hun.2.2.trans hk3) z hf
            cases hfd : (constraint.Variable.possible var).foldl
                (constraint.backtrackStep
                  (fun cs1 avail1 => constraint.backtrackAux sel points fuel cs1 avail1) v)
                (some (Sum.inr (cs, avail.erase index))) with
            | none =>
              simp only [hfd] at h
              exact Option.noConfusion h
            | some z =>
              have hz := hinv var.possible cs rfl (fun t => rfl) rfl z hfd
              simp only [hfd] at h
              cases z with
              | inl r =>
                have h2 : some r = some (csR, availR, none) := h
                rw [Option.some.injEq] at h2
                have hrs : r.2.2.isSome := hz.2 r rfl
                rw [h2] at hrs
                simp at hrs
              | inr pr =>
                obtain ⟨csEnd, availEnd⟩ := pr
                have h2 : some (csEnd, insert index availEnd, none)
                    = some (csR, availR, none) := h
                rw [Option.some.injEq, Prod.mk.injEq] at h2
                obtain ⟨hres, hrest⟩ := h2
                rw [Prod.mk.injEq] at hrest
                have hE := hz.1 csEnd availEnd rfl
                subst hres
                refine ⟨hE.1, hE.2.1, hE.2.2.1, ?_⟩
                rw [← hrest.1, hE.2.2.2]
                exact Finset.insert_erase hidx
      · rw [if_neg hidx] at h
        exact Option.noConfusion h

theorem backtrack_failure_restores_state_witness :
    ([0] : List Nat).Nodup
    ∧ (∀ i ∈ Finset.range 1, ((([0] : List Nat).get? i).bind
        solverFail.variableLookup).map constraint.Variable.value = some none)
    ∧ c10cs.variableLookup = solverFail.variableLookup
    ∧ (∀ t, (c10cs.globalCounts t).getD 0 = (solverFail.globalCounts t).getD 0)
    ∧ c10cs.variableToConstraints = solverFail.variableToConstraints
    ∧ c10avail = Finset.range 1 := by
  have h : constraint.backtrackAux constraint.DegreeSelectionStrategy.getNextIndex
      [0] 2 solverFail (Finset.range 1) = some (c10cs, c10avail, none) := rfl
  have hr := backtrack_failure_restores_state
    constraint.DegreeSelectionStrategy.getNextIndex [0] 2 solverFail c10cs
    (Finset.range 1) c10avail (by decide) (by decide) h
  exact ⟨by decide, by decide, hr.1, hr.2.1, hr.2.2.1, hr.2.2.2⟩
